import Mathlib

/-!
Verification of the procedural bean-character generator
(`scripts/generate_bean.py`): a shallow embedding of its geometry
construction (parametric capsule and UV-sphere tessellation), part
assembly, armature (bone hierarchy), output-path computation and export
invocation, together with theorems about the generated data.

Conventions of the embedding:
* a 3D point is a triple `(x, y, z) : α × α × α` over a field `α`;
* the host's trigonometric functions are passed in as parameters
  `cosF sinF : α → α` together with the value `piA` standing for `math.pi`;
  theorems about exact geometry instantiate them with `Real.cos`,
  `Real.sin` and `Real.pi`;
* machine floats of the script are modelled as exact field elements
  (all the script's constants are decimal literals, written here as
  the same rationals);
* filesystem paths are modelled as their lists of components.
-/

namespace GenerateBean

/-- A point in 3-space: `(x, y, z)`. -/
abbrev P3 (α : Type) := α × α × α

section GeometryDefs

variable {α : Type} [Field α]

/-! ## Body proportion constants (the script's configuration block) -/

/-- `TORSO_HEIGHT = 0.70`. -/
def TORSO_HEIGHT : α := 7 / 10

/-- `TORSO_RADIUS = 0.32`. -/
def TORSO_RADIUS : α := 8 / 25

/-- `HEAD_RADIUS = 0.26`. -/
def HEAD_RADIUS : α := 13 / 50

/-- `HEAD_BLEND_FACTOR = 0.6`. -/
def HEAD_BLEND_FACTOR : α := 3 / 5

/-- `UPPER_ARM_LENGTH = 0.40`. -/
def UPPER_ARM_LENGTH : α := 2 / 5

/-- `UPPER_ARM_RADIUS = 0.10`. -/
def UPPER_ARM_RADIUS : α := 1 / 10

/-- `FOREARM_LENGTH = 0.36`. -/
def FOREARM_LENGTH : α := 9 / 25

/-- `FOREARM_RADIUS = 0.09`. -/
def FOREARM_RADIUS : α := 9 / 100

/-- `THIGH_LENGTH = 0.44`. -/
def THIGH_LENGTH : α := 11 / 25

/-- `THIGH_RADIUS = 0.11`. -/
def THIGH_RADIUS : α := 11 / 100

/-- `SHIN_LENGTH = 0.44`. -/
def SHIN_LENGTH : α := 11 / 25

/-- `SHIN_RADIUS = 0.085`. -/
def SHIN_RADIUS : α := 17 / 200

/-- `SHOULDER_Y = TORSO_HEIGHT * 0.35`. -/
def SHOULDER_Y : α := TORSO_HEIGHT * (35 / 100)

/-- `SHOULDER_X = TORSO_RADIUS + 0.04`. -/
def SHOULDER_X : α := TORSO_RADIUS + 4 / 100

/-- `HIP_X = 0.12`. -/
def HIP_X : α := 12 / 100

/-- `HIP_Y = -TORSO_HEIGHT * 0.5`. -/
def HIP_Y : α := -TORSO_HEIGHT * (1 / 2)

/-! ## `create_capsule`: parametric capsule tessellation -/

/-- One ring of `S` vertices as `create_capsule`'s inner loops build it:
vertex `j` is `(R * cos θ, Y, R * sin θ)` with `θ = 2 * π * j / S`
(for the cap rings the ring radius `R` is `radius * cos angle`,
for the cylinder rings it is `radius` itself). -/
def ringVerts (cosF sinF : α → α) (piA R Y : α) (S : ℕ) : List (P3 α) :=
  (List.range S).map fun (j : ℕ) =>
    (R * cosF (2 * piA * (j : α) / (S : α)), Y, R * sinF (2 * piA * (j : α) / (S : α)))

/-- `verts_by_ring` of `create_capsule`: the bottom hemisphere rings
(loop index `i` running from `segments_cap` down to `1`, so iteration `k`
uses `i = C - k`), the `segments_height + 1` cylinder rings
(`ring_y = -half_length + 2 * half_length * (i / rings)`), and the top
hemisphere rings (`i` from `1` to `segments_cap`). -/
def capsuleRings (cosF sinF : α → α) (piA r hl : α) (S H C : ℕ) : List (List (P3 α)) :=
  ((List.range C).map fun (k : ℕ) =>
    ringVerts cosF sinF piA (r * cosF (piA / 2 * (((C - k : ℕ) : α) / (C : α))))
      (-hl - r * sinF (piA / 2 * (((C - k : ℕ) : α) / (C : α)))) S)
  ++ ((List.range (H + 1)).map fun (i : ℕ) =>
    ringVerts cosF sinF piA r (-hl + 2 * hl * ((i : α) / (H : α))) S)
  ++ ((List.range C).map fun (k : ℕ) =>
    ringVerts cosF sinF piA (r * cosF (piA / 2 * (((k + 1 : ℕ) : α) / (C : α))))
      (hl + r * sinF (piA / 2 * (((k + 1 : ℕ) : α) / (C : α)))) S)

/-- The vertex list of `create_capsule(name, radius, half_length, segments_ring,
segments_height, segments_cap)` in `bm.verts` creation order: all ring vertices,
then the bottom pole `(0, -half_length - radius, 0)`, then the top pole
`(0, half_length + radius, 0)`. -/
def capsuleVerts (cosF sinF : α → α) (piA r hl : α) (S H C : ℕ) : List (P3 α) :=
  (capsuleRings cosF sinF piA r hl S H C).flatten ++ [(0, -hl - r, 0), (0, hl + r, 0)]

/-- `len(verts_by_ring)` of `create_capsule`: `C` bottom cap rings, `H + 1`
cylinder rings, `C` top cap rings. -/
def numCapsuleRings (H C : ℕ) : ℕ := C + (H + 1) + C

/-- The face list of `create_capsule`, with each face the list of the indices of
its vertices in `capsuleVerts` order (ring `i` vertex `j` has index `i * S + j`,
the bottom pole index `numCapsuleRings * S`, the top pole one more): one quad per
`j` between consecutive rings, then the bottom triangle fan
`[bottom_pole, ring0[j+1], ring0[j]]`, then the top fan
`[top_pole, last[j], last[j+1]]`. -/
def capsuleFaces (S H C : ℕ) : List (List ℕ) :=
  ((List.range (numCapsuleRings H C - 1)).flatMap fun i =>
    (List.range S).map fun j =>
      [i * S + j, i * S + (j + 1) % S, (i + 1) * S + (j + 1) % S, (i + 1) * S + j])
  ++ ((List.range S).map fun j => [numCapsuleRings H C * S, (j + 1) % S, j])
  ++ ((List.range S).map fun j =>
      [numCapsuleRings H C * S + 1, (numCapsuleRings H C - 1) * S + j,
        (numCapsuleRings H C - 1) * S + (j + 1) % S])

/-- The positions a face (a list of vertex indices) refers to in a vertex list. -/
def facePositions (L : List (P3 α)) (f : List ℕ) : List (P3 α) :=
  f.filterMap fun i => L[i]?

/-- Modelled from the spec: `create_sphere` delegates entirely to the host
built-in `bmesh.ops.create_uvsphere(bm, u_segments, v_segments, radius)`
("Create a UV sphere mesh centered at origin"), which is not part of this
repository. A standard UV sphere with poles on the Z axis: `v - 1` latitude
rings (polar angle `φ = π * i / v`, `i = 1 .. v - 1`) of `u` vertices each
(azimuth `θ = 2 * π * j / u`), plus the two pole vertices `(0, 0, ±r)`. -/
def create_uvsphere (cosF sinF : α → α) (piA r : α) (u v : ℕ) : List (P3 α) :=
  ((List.range (v - 1)).flatMap fun (k : ℕ) =>
    (List.range u).map fun (j : ℕ) =>
      (r * sinF (piA * ((k + 1 : ℕ) : α) / (v : α)) * cosF (2 * piA * (j : α) / (u : α)),
       r * sinF (piA * ((k + 1 : ℕ) : α) / (v : α)) * sinF (2 * piA * (j : α) / (u : α)),
       r * cosF (piA * ((k + 1 : ℕ) : α) / (v : α))))
  ++ [(0, 0, r), (0, 0, -r)]

/-! ## Object transforms (`rotation_euler`, `location`, `transform_apply`) -/

/-- Translation of a point by an offset (the object's `location`). -/
def translateP (t p : P3 α) : P3 α := (p.1 + t.1, p.2.1 + t.2.1, p.2.2 + t.2.2)

/-- Rotation about the Z axis with cosine `c` and sine `s`
(the only rotation the script uses: `rotation_euler = (0, 0, γ)`). -/
def rotZ (c s : α) (p : P3 α) : P3 α :=
  (c * p.1 - s * p.2.1, s * p.1 + c * p.2.1, p.2.2)

/-- Reflection through the plane `x = 0`. -/
def mirrorX (p : P3 α) : P3 α := (-p.1, p.2.1, p.2.2)

/-! ## `create_bean_mesh`: part assembly -/

/-- The vertices `create_bean_torso` contributes: the torso capsule
(`TORSO_RADIUS`, `TORSO_HEIGHT / 2`, segments 16/8/6) joined with the head
sphere (`HEAD_RADIUS`, 16 segments, 12 rings) translated up by
`head_y = TORSO_HEIGHT / 2 + HEAD_RADIUS * HEAD_BLEND_FACTOR`. (The
`remove_doubles(threshold=0.02)` pass it then runs is a host built-in,
delegated like the final merge pass of `create_bean_mesh`.) -/
def create_bean_torso (cosF sinF : α → α) (piA : α) : List (P3 α) :=
  capsuleVerts cosF sinF piA TORSO_RADIUS (TORSO_HEIGHT / 2) 16 8 6
  ++ (create_uvsphere cosF sinF piA HEAD_RADIUS 16 12).map
      (translateP (0, TORSO_HEIGHT / 2 + HEAD_RADIUS * HEAD_BLEND_FACTOR, 0))

/-- `create_limb`: a capsule with segments 10/4/4. -/
def create_limb (cosF sinF : α → α) (piA r hl : α) : List (P3 α) :=
  capsuleVerts cosF sinF piA r hl 10 4 4

/-- An arm part in world coordinates: the limb capsule rotated about Z by
`sign * π / 2` (via `rotation_euler`) and translated to `(x, SHOULDER_Y, 0)`,
as `transform_apply` bakes it. `c`/`s` are the host's cosine and sine of the
rotation angle. -/
def armPart (cosF sinF : α → α) (piA c s r hl x : α) : List (P3 α) :=
  (create_limb cosF sinF piA r hl).map fun p => translateP (x, SHOULDER_Y, 0) (rotZ c s p)

/-- A leg part in world coordinates: the limb capsule translated to `(x, y, 0)`. -/
def legPart (cosF sinF : α → α) (piA r hl x y : α) : List (P3 α) :=
  (create_limb cosF sinF piA r hl).map fun p => translateP (x, y, 0) p

/-- The parts `create_bean_mesh` joins, in order: the torso+head body, the two
arm chains (left sign `-1`, right sign `+1`), the two leg chains. -/
def beanParts (cosF sinF : α → α) (piA : α) : List (List (P3 α)) :=
  [ create_bean_torso cosF sinF piA
  , armPart cosF sinF piA (cosF (-(piA / 2))) (sinF (-(piA / 2))) UPPER_ARM_RADIUS
      (UPPER_ARM_LENGTH / 2) (-(SHOULDER_X + UPPER_ARM_LENGTH / 2))
  , armPart cosF sinF piA (cosF (-(piA / 2))) (sinF (-(piA / 2))) FOREARM_RADIUS
      (FOREARM_LENGTH / 2) (-(SHOULDER_X + UPPER_ARM_LENGTH + FOREARM_LENGTH / 2 + 2 / 100))
  , armPart cosF sinF piA (cosF (piA / 2)) (sinF (piA / 2)) UPPER_ARM_RADIUS
      (UPPER_ARM_LENGTH / 2) (SHOULDER_X + UPPER_ARM_LENGTH / 2)
  , armPart cosF sinF piA (cosF (piA / 2)) (sinF (piA / 2)) FOREARM_RADIUS
      (FOREARM_LENGTH / 2) (SHOULDER_X + UPPER_ARM_LENGTH + FOREARM_LENGTH / 2 + 2 / 100)
  , legPart cosF sinF piA THIGH_RADIUS (THIGH_LENGTH / 2) (-HIP_X) (HIP_Y - THIGH_LENGTH / 2)
  , legPart cosF sinF piA SHIN_RADIUS (SHIN_LENGTH / 2) (-HIP_X)
      (HIP_Y - THIGH_LENGTH - SHIN_LENGTH / 2 - 2 / 100)
  , legPart cosF sinF piA THIGH_RADIUS (THIGH_LENGTH / 2) HIP_X (HIP_Y - THIGH_LENGTH / 2)
  , legPart cosF sinF piA SHIN_RADIUS (SHIN_LENGTH / 2) HIP_X
      (HIP_Y - THIGH_LENGTH - SHIN_LENGTH / 2 - 2 / 100) ]

/-- The assembled (joined) vertex list of the bean character: all parts of
`create_bean_mesh`, positioned and joined into one mesh. -/
def beanAssembledVerts (cosF sinF : α → α) (piA : α) : List (P3 α) :=
  (beanParts cosF sinF piA).flatten

/-- Squared Euclidean distance between two points. -/
def dist2 (p q : P3 α) : α :=
  (p.1 - q.1) ^ 2 + (p.2.1 - q.2.1) ^ 2 + (p.2.2 - q.2.2) ^ 2


/-- Helper decomposition of `capsuleRings`: the rings of `create_capsule` with
cap count `C' + 1`, other than the first (bottom cap, angle `π/2`) and the last
(top cap, angle `π/2`) ones. -/
def capsuleMidRings (cosF sinF : α → α) (piA r hl : α) (S H C' : ℕ) :
    List (List (P3 α)) :=
  ((List.range C').map fun (k : ℕ) =>
    ringVerts cosF sinF piA
      (r * cosF (piA / 2 * (((C' + 1 - (k + 1) : ℕ) : α) / ((C' + 1 : ℕ) : α))))
      (-hl - r * sinF (piA / 2 * (((C' + 1 - (k + 1) : ℕ) : α) / ((C' + 1 : ℕ) : α)))) S)
  ++ ((List.range (H + 1)).map fun (i : ℕ) =>
    ringVerts cosF sinF piA r (-hl + 2 * hl * ((i : α) / (H : α))) S)
  ++ ((List.range C').map fun (k : ℕ) =>
    ringVerts cosF sinF piA
      (r * cosF (piA / 2 * (((k + 1 : ℕ) : α) / ((C' + 1 : ℕ) : α))))
      (hl + r * sinF (piA / 2 * (((k + 1 : ℕ) : α) / ((C' + 1 : ℕ) : α)))) S)

end GeometryDefs

/-- Modelled from the spec: `bpy.ops.mesh.remove_doubles(threshold)` is a host
(Blender) built-in, not part of this repository; the spec asks that after it
"the final mesh has no duplicate vertices within a small merge tolerance".
Merge by distance: scanning the vertices in order, a vertex lying within the
threshold of an already-kept vertex is merged into that kept vertex (it
disappears), otherwise it is kept; `close` decides whether two vertices are
within the threshold. `kept` accumulates the kept vertices in reverse. -/
def removeDoubles {β : Type} (close : β → β → Bool) : List β → List β → List β
  | kept, [] => kept.reverse
  | kept, v :: rest =>
    if kept.any fun u => close u v then removeDoubles close kept rest
    else removeDoubles close (v :: kept) rest

/-- The final vertex list of `create_bean_mesh`: the joined parts followed by
the merge-by-distance pass (threshold `0.015`, given by `close`). -/
def create_bean_mesh {α : Type} [Field α] (cosF sinF : α → α) (piA : α)
    (close : P3 α → P3 α → Bool) : List (P3 α) :=
  removeDoubles close [] (beanAssembledVerts cosF sinF piA)

/-- The decidable closeness test over `ℚ`: whether two points lie within
distance `eps` of each other (by squared distance). -/
def closeQ (eps : ℚ) (p q : P3 ℚ) : Bool := decide (dist2 p q ≤ eps ^ 2)

/-! ## `create_armature`: the bone hierarchy -/

/-- An edit bone as the script sets one up: name, optional parent (by name),
head and tail positions, and the `use_connect` flag. Positions are exact
rationals (every coordinate the script writes is a decimal literal or a
product/sum of such). -/
structure EditBone where
  name : String
  parent : Option String
  head : P3 ℚ
  tail : P3 ℚ
  use_connect : Bool
deriving DecidableEq

/-- Root bone `torso`: head at the body center, tail at `(0, TORSO_HEIGHT * 0.5, 0)`. -/
def torso_bone : EditBone :=
  ⟨"torso", none, (0, 0, 0), (0, TORSO_HEIGHT * (1 / 2), 0), false⟩

/-- Bone `head`: base at `head_base_y = TORSO_HEIGHT * 0.5`, connected to `torso`. -/
def head_bone : EditBone :=
  ⟨"head", some "torso", (0, TORSO_HEIGHT * (1 / 2), 0),
    (0, TORSO_HEIGHT * (1 / 2) + HEAD_RADIUS * 2, 0), true⟩

/-- Bone `l_upperArm`. -/
def l_upperArm_bone : EditBone :=
  ⟨"l_upperArm", some "torso", (-SHOULDER_X, SHOULDER_Y, 0),
    (-(SHOULDER_X + UPPER_ARM_LENGTH), SHOULDER_Y, 0), false⟩

/-- Bone `l_foreArm`: its head is `l_upper.tail.copy()`. -/
def l_foreArm_bone : EditBone :=
  ⟨"l_foreArm", some "l_upperArm", l_upperArm_bone.tail,
    (-(SHOULDER_X + UPPER_ARM_LENGTH + FOREARM_LENGTH), SHOULDER_Y, 0), true⟩

/-- Bone `r_upperArm`. -/
def r_upperArm_bone : EditBone :=
  ⟨"r_upperArm", some "torso", (SHOULDER_X, SHOULDER_Y, 0),
    (SHOULDER_X + UPPER_ARM_LENGTH, SHOULDER_Y, 0), false⟩

/-- Bone `r_foreArm`: its head is `r_upper.tail.copy()`. -/
def r_foreArm_bone : EditBone :=
  ⟨"r_foreArm", some "r_upperArm", r_upperArm_bone.tail,
    (SHOULDER_X + UPPER_ARM_LENGTH + FOREARM_LENGTH, SHOULDER_Y, 0), true⟩

/-- Bone `l_thigh`. -/
def l_thigh_bone : EditBone :=
  ⟨"l_thigh", some "torso", (-HIP_X, HIP_Y, 0), (-HIP_X, HIP_Y - THIGH_LENGTH, 0), false⟩

/-- Bone `l_shin`: its head is `l_thigh.tail.copy()`. -/
def l_shin_bone : EditBone :=
  ⟨"l_shin", some "l_thigh", l_thigh_bone.tail,
    (-HIP_X, HIP_Y - THIGH_LENGTH - SHIN_LENGTH, 0), true⟩

/-- Bone `r_thigh`. -/
def r_thigh_bone : EditBone :=
  ⟨"r_thigh", some "torso", (HIP_X, HIP_Y, 0), (HIP_X, HIP_Y - THIGH_LENGTH, 0), false⟩

/-- Bone `r_shin`: its head is `r_thigh.tail.copy()`. -/
def r_shin_bone : EditBone :=
  ⟨"r_shin", some "r_thigh", r_thigh_bone.tail,
    (HIP_X, HIP_Y - THIGH_LENGTH - SHIN_LENGTH, 0), true⟩

/-- The bones `create_armature` creates, in creation order. -/
def create_armature : List EditBone :=
  [torso_bone, head_bone, l_upperArm_bone, l_foreArm_bone, r_upperArm_bone,
    r_foreArm_bone, l_thigh_bone, l_shin_bone, r_thigh_bone, r_shin_bone]

/-! ## Output path and export invocation -/

/-- `OUTPUT_PATH = "apps/client/public/models/bean_character.glb"`, as its
slash-separated components. -/
def OUTPUT_PATH : List String :=
  ["apps", "client", "public", "models", "bean_character.glb"]

/-- `os.path.abspath` of a relative path: resolve against the current working
directory (no `..`/`.` segments occur in the paths the script resolves). -/
def abspath (cwd p : List String) : List String := cwd ++ p

/-- `os.path.dirname`: drop the last path component. -/
def dirname (p : List String) : List String := p.dropLast

/-- `os.path.join` of a directory with a relative path. -/
def joinPath (a b : List String) : List String := a ++ b

/-- The output path `main` computes: if the current directory contains
`apps/client/public`, `os.path.abspath(OUTPUT_PATH)`; otherwise the project
root is resolved as the parent of the script's own directory
(`dirname(dirname(abspath(__file__)))`) and `OUTPUT_PATH` is joined onto it. -/
def mainOutputPath (clientPublicExists : Bool) (cwd scriptFile : List String) :
    List String :=
  if clientPublicExists then abspath cwd OUTPUT_PATH
  else joinPath (dirname (dirname (abspath cwd scriptFile))) OUTPUT_PATH

/-- One invocation of `bpy.ops.export_scene.gltf` with the arguments the
script can pass: which objects are selected (and active) at the call, the
file path, and the keyword arguments `export_glb` sets. -/
structure ExportCall where
  selected : List String
  active : String
  filepath : List String
  export_format : String
  use_selection : Bool
  export_apply : Bool
  export_animations : Bool
  export_skins : Bool
  export_normals : Bool
  export_materials : String
deriving DecidableEq

/-- `export_glb(armature_obj, mesh_obj, output_path)`: deselect all, select
exactly the armature and the mesh (armature active), then call the glTF
exporter with `export_format="GLB"`, `use_selection=True`, `export_apply=True`,
`export_animations=False`, `export_skins=True`, `export_normals=True`,
`export_materials="EXPORT"`. -/
def export_glb (armature_obj mesh_obj : String) (output_path : List String) :
    ExportCall :=
  ⟨[armature_obj, mesh_obj], armature_obj, output_path,
    "GLB", true, true, false, true, true, "EXPORT"⟩

/-- `add_material`: appends the single newly created "BeanMaterial" to the
mesh's material slots. -/
def add_material (mats : List String) : List String := mats ++ ["BeanMaterial"]

/-- The material slots of the bean mesh at export time: the mesh datablock is
created empty by `bpy.data.meshes.new` (and joining parts whose slots are all
empty adds none), and `add_material` is the only call that appends one. -/
def mainMeshMaterials : List String := add_material []

/-- The exporter invocations `main` performs: exactly one, via
`export_glb(armature, bean_mesh, output_path)`, on the armature object
"BeanArmature" and the joined mesh object "BeanCharacter". -/
def mainExportCalls (clientPublicExists : Bool) (cwd scriptFile : List String) :
    List ExportCall :=
  [export_glb "BeanArmature" "BeanCharacter"
    (mainOutputPath clientPublicExists cwd scriptFile)]

end GenerateBean

/-! ## Helper lemmas -/

namespace GenerateBean

theorem mem_ringVerts {α : Type} [Field α] {cosF sinF : α → α} {piA R Y : α} {S : ℕ}
    {v : P3 α} :
    v ∈ ringVerts cosF sinF piA R Y S ↔
      ∃ j < S, v = (R * cosF (2 * piA * (j : α) / (S : α)), Y,
        R * sinF (2 * piA * (j : α) / (S : α))) := by
  unfold ringVerts
  constructor
  · intro hv
    obtain ⟨j, hj, hx⟩ :=
      (List.mem_map (f := fun j : ℕ =>
        ((R * cosF (2 * piA * (j : α) / (S : α)), Y,
          R * sinF (2 * piA * (j : α) / (S : α))) : P3 α))).mp hv
    exact ⟨j, List.mem_range.mp hj, hx.symm⟩
  · rintro ⟨j, hj, rfl⟩
    exact (List.mem_map (f := fun j : ℕ =>
      ((R * cosF (2 * piA * (j : α) / (S : α)), Y,
        R * sinF (2 * piA * (j : α) / (S : α))) : P3 α))).mpr
      ⟨j, List.mem_range.mpr hj, rfl⟩

theorem cap_angle_sin {i C : ℕ} (hi1 : 1 ≤ i) (hiC : i ≤ C) :
    0 < Real.sin (Real.pi / 2 * ((i : ℝ) / (C : ℝ))) ∧
      Real.sin (Real.pi / 2 * ((i : ℝ) / (C : ℝ))) ≤ 1 := by
  have hC0 : (0 : ℝ) < (C : ℝ) := by
    have h1 : 1 ≤ C := le_trans hi1 hiC
    exact_mod_cast Nat.lt_of_lt_of_le Nat.zero_lt_one h1
  have hi0 : (0 : ℝ) < (i : ℝ) := by exact_mod_cast hi1
  have ht0 : 0 < (i : ℝ) / (C : ℝ) := div_pos hi0 hC0
  have ht1 : (i : ℝ) / (C : ℝ) ≤ 1 := (div_le_one hC0).mpr (by exact_mod_cast hiC)
  have hpi := Real.pi_pos
  have ha0 : 0 < Real.pi / 2 * ((i : ℝ) / (C : ℝ)) := by positivity
  have ha2 : Real.pi / 2 * ((i : ℝ) / (C : ℝ)) ≤ Real.pi / 2 := by nlinarith
  exact ⟨Real.sin_pos_of_pos_of_lt_pi ha0 (by linarith), Real.sin_le_one _⟩

theorem cap_angle_sin_lt_one {i C : ℕ} (hi1 : 1 ≤ i) (hiC : i < C) :
    Real.sin (Real.pi / 2 * ((i : ℝ) / (C : ℝ))) < 1 := by
  have hC0 : (0 : ℝ) < (C : ℝ) := by exact_mod_cast Nat.lt_of_le_of_lt (Nat.zero_le i) hiC
  have hi0 : (0 : ℝ) < (i : ℝ) := by exact_mod_cast hi1
  have ht0 : 0 < (i : ℝ) / (C : ℝ) := div_pos hi0 hC0
  have ht1 : (i : ℝ) / (C : ℝ) < 1 := (div_lt_one hC0).mpr (by exact_mod_cast hiC)
  have hpi := Real.pi_pos
  have ha2 : Real.pi / 2 * ((i : ℝ) / (C : ℝ)) < Real.pi / 2 := by nlinarith
  have hmem1 : Real.pi / 2 * ((i : ℝ) / (C : ℝ)) ∈
      Set.Icc (-(Real.pi / 2)) (Real.pi / 2) := by
    constructor <;> nlinarith
  have hmem2 : Real.pi / 2 ∈ Set.Icc (-(Real.pi / 2)) (Real.pi / 2) := by
    constructor <;> linarith
  have hlt := Real.strictMonoOn_sin hmem1 hmem2 ha2
  rwa [Real.sin_pi_div_two] at hlt

/-- Vertices of a hemisphere-cap ring at angle `a` lie on the sphere of radius
`r` about `(0, ±hl, 0)`, strictly beyond the cylinder band `|y| ≤ hl`. -/
theorem capRing_vertex_surface {r hl a : ℝ} (hr : 0 < r) (hhl : 0 ≤ hl)
    (hs0 : 0 < Real.sin a) (hs1 : Real.sin a ≤ 1) {Y : ℝ}
    (hY : |Y| = hl + r * Real.sin a) (S : ℕ) :
    ∀ v ∈ ringVerts Real.cos Real.sin Real.pi (r * Real.cos a) Y S,
      (|v.2.1| ≤ hl → v.1 ^ 2 + v.2.2 ^ 2 = r ^ 2) ∧
      (hl < |v.2.1| → v.1 ^ 2 + (|v.2.1| - hl) ^ 2 + v.2.2 ^ 2 = r ^ 2) ∧
      |v.2.1| ≤ hl + r := by
  intro v hv
  rw [mem_ringVerts] at hv
  obtain ⟨j, hj, rfl⟩ := hv
  dsimp only
  have hrs : 0 < r * Real.sin a := mul_pos hr hs0
  have h1 := Real.sin_sq_add_cos_sq (2 * Real.pi * (j : ℝ) / (S : ℝ))
  have h2 := Real.sin_sq_add_cos_sq a
  refine ⟨fun habs => absurd habs (by rw [hY]; push_neg; linarith), fun _ => ?_, ?_⟩
  · rw [hY]
    linear_combination (r * Real.cos a) ^ 2 * h1 + r ^ 2 * h2
  · rw [hY]
    nlinarith [mul_le_mul_of_nonneg_left hs1 hr.le]

/-- Vertices of a cylinder ring at height `Y`, `|Y| ≤ hl`, lie on the cylinder. -/
theorem cylRing_vertex_surface {r hl Y : ℝ} (hr : 0 ≤ r) (hhl : 0 ≤ hl)
    (hY : |Y| ≤ hl) (S : ℕ) :
    ∀ v ∈ ringVerts Real.cos Real.sin Real.pi r Y S,
      (|v.2.1| ≤ hl → v.1 ^ 2 + v.2.2 ^ 2 = r ^ 2) ∧
      (hl < |v.2.1| → v.1 ^ 2 + (|v.2.1| - hl) ^ 2 + v.2.2 ^ 2 = r ^ 2) ∧
      |v.2.1| ≤ hl + r := by
  intro v hv
  rw [mem_ringVerts] at hv
  obtain ⟨j, hj, rfl⟩ := hv
  dsimp only
  have h1 := Real.sin_sq_add_cos_sq (2 * Real.pi * (j : ℝ) / (S : ℝ))
  exact ⟨fun _ => by linear_combination r ^ 2 * h1,
    fun habs => absurd hY (by push_neg; exact habs), by linarith⟩

theorem cyl_ring_y_bound {hl : ℝ} (hhl : 0 ≤ hl) {i H : ℕ} (hi : i < H + 1) :
    |(-hl + 2 * hl * ((i : ℝ) / (H : ℝ)))| ≤ hl := by
  rcases Nat.eq_zero_or_pos H with hH | hH
  · subst hH
    interval_cases i
    simp [abs_of_nonneg hhl]
  · have hH0 : (0 : ℝ) < (H : ℝ) := by exact_mod_cast hH
    have ht0 : 0 ≤ (i : ℝ) / (H : ℝ) := by positivity
    have ht1 : (i : ℝ) / (H : ℝ) ≤ 1 :=
      (div_le_one hH0).mpr (by exact_mod_cast Nat.lt_succ_iff.mp hi)
    rw [abs_le]
    constructor <;> nlinarith

theorem ringVerts_length {α : Type} [Field α] (cosF sinF : α → α) (piA R Y : α) (S : ℕ) :
    (ringVerts cosF sinF piA R Y S).length = S := by
  simp [ringVerts]

theorem ringVerts_zero_radius {α : Type} [Field α] (cosF sinF : α → α) (piA Y : α) (S : ℕ) :
    ringVerts cosF sinF piA 0 Y S = List.replicate S ((0 : α), Y, 0) := by
  rw [List.eq_replicate_iff]
  refine ⟨ringVerts_length cosF sinF piA 0 Y S, fun b hb => ?_⟩
  rw [mem_ringVerts] at hb
  obtain ⟨j, hj, rfl⟩ := hb
  simp

theorem capsuleRings_length {α : Type} [Field α] (cosF sinF : α → α) (piA r hl : α)
    (S H C : ℕ) :
    (capsuleRings cosF sinF piA r hl S H C).length = numCapsuleRings H C := by
  simp [capsuleRings, numCapsuleRings]
  omega

theorem capsuleRings_ring_length {α : Type} [Field α] {cosF sinF : α → α} {piA r hl : α}
    {S H C : ℕ} :
    ∀ ring ∈ capsuleRings cosF sinF piA r hl S H C, ring.length = S := by
  intro ring hring
  rw [capsuleRings, List.mem_append, List.mem_append] at hring
  rcases hring with (h | h) | h <;>
    · obtain ⟨k, _, rfl⟩ := List.mem_map.mp h
      exact ringVerts_length _ _ _ _ _ _

theorem flatten_length_uniform {β : Type} {L : List (List β)} {S : ℕ}
    (hS : ∀ l ∈ L, l.length = S) : L.flatten.length = L.length * S := by
  induction L with
  | nil => simp
  | cons l rest ih =>
    simp only [List.flatten_cons, List.length_append, List.length_cons]
    rw [hS l (List.mem_cons_self l rest), ih (fun x hx => hS x (List.mem_cons_of_mem l hx))]
    ring

theorem flatten_getElem_uniform {β : Type} {L : List (List β)} {S : ℕ}
    (hS : ∀ l ∈ L, l.length = S) {i j : ℕ} (hi : i < L.length) (hj : j < S) :
    L.flatten[i * S + j]? = (L[i]?.bind fun l => l[j]?) := by
  induction L generalizing i with
  | nil => simp at hi
  | cons l rest ih =>
    have hlS : l.length = S := hS l (List.mem_cons_self l rest)
    cases i with
    | zero =>
      rw [List.flatten_cons, List.getElem?_append_left (by omega)]
      simp
    | succ i =>
      rw [List.flatten_cons, List.getElem?_append_right (by rw [hlS, Nat.succ_mul]; omega)]
      have hidx : (i + 1) * S + j - l.length = i * S + j := by rw [hlS, Nat.succ_mul]; omega
      rw [hidx]
      simp only [List.getElem?_cons_succ]
      exact ih (fun x hx => hS x (List.mem_cons_of_mem l hx)) (by simpa using hi)
theorem capsuleRings_bot_split (r hl : ℝ) (S C' : ℕ) :
    (List.range (C' + 1)).map (fun (k : ℕ) =>
      ringVerts Real.cos Real.sin Real.pi
        (r * Real.cos (Real.pi / 2 * (((C' + 1 - k : ℕ) : ℝ) / ((C' + 1 : ℕ) : ℝ))))
        (-hl - r * Real.sin
          (Real.pi / 2 * (((C' + 1 - k : ℕ) : ℝ) / ((C' + 1 : ℕ) : ℝ)))) S) =
      List.replicate S ((0 : ℝ), -hl - r, 0) :: (List.range C').map (fun (k : ℕ) =>
        ringVerts Real.cos Real.sin Real.pi
          (r * Real.cos (Real.pi / 2 * (((C' + 1 - (k + 1) : ℕ) : ℝ) / ((C' + 1 : ℕ) : ℝ))))
          (-hl - r * Real.sin
            (Real.pi / 2 * (((C' + 1 - (k + 1) : ℕ) : ℝ) / ((C' + 1 : ℕ) : ℝ)))) S) := by
  have hcast : ((C' + 1 : ℕ) : ℝ) ≠ 0 := by positivity
  have hdiv : ((C' + 1 : ℕ) : ℝ) / ((C' + 1 : ℕ) : ℝ) = 1 := div_self hcast
  rw [List.range_succ_eq_map, List.map_cons, List.map_map]
  congr 1
  simp only [Nat.sub_zero, hdiv, mul_one, Real.cos_pi_div_two, Real.sin_pi_div_two,
    mul_zero]
  exact ringVerts_zero_radius _ _ _ _ _

theorem capsuleRings_top_split (r hl : ℝ) (S C' : ℕ) :
    (List.range (C' + 1)).map (fun (k : ℕ) =>
      ringVerts Real.cos Real.sin Real.pi
        (r * Real.cos (Real.pi / 2 * (((k + 1 : ℕ) : ℝ) / ((C' + 1 : ℕ) : ℝ))))
        (hl + r * Real.sin
          (Real.pi / 2 * (((k + 1 : ℕ) : ℝ) / ((C' + 1 : ℕ) : ℝ)))) S) =
      (List.range C').map (fun (k : ℕ) =>
        ringVerts Real.cos Real.sin Real.pi
          (r * Real.cos (Real.pi / 2 * (((k + 1 : ℕ) : ℝ) / ((C' + 1 : ℕ) : ℝ))))
          (hl + r * Real.sin
            (Real.pi / 2 * (((k + 1 : ℕ) : ℝ) / ((C' + 1 : ℕ) : ℝ)))) S)
        ++ [List.replicate S ((0 : ℝ), hl + r, 0)] := by
  have hcast : ((C' + 1 : ℕ) : ℝ) ≠ 0 := by positivity
  have hdiv : ((C' + 1 : ℕ) : ℝ) / ((C' + 1 : ℕ) : ℝ) = 1 := div_self hcast
  rw [List.range_succ, List.map_append, List.map_cons, List.map_nil]
  congr 2
  simp only [hdiv, mul_one, Real.cos_pi_div_two, Real.sin_pi_div_two, mul_zero]
  exact ringVerts_zero_radius _ _ _ _ _

theorem capsuleRings_decomp (r hl : ℝ) (S H C' : ℕ) :
    capsuleRings Real.cos Real.sin Real.pi r hl S H (C' + 1) =
      List.replicate S ((0 : ℝ), -hl - r, 0) ::
        (capsuleMidRings Real.cos Real.sin Real.pi r hl S H C'
          ++ [List.replicate S ((0 : ℝ), hl + r, 0)]) := by
  rw [capsuleRings, capsuleRings_bot_split, capsuleRings_top_split, capsuleMidRings]
  simp [List.append_assoc]

theorem capsule_verts_decomp (r hl : ℝ) (S H C' : ℕ) :
    capsuleVerts Real.cos Real.sin Real.pi r hl S H (C' + 1) =
      List.replicate S ((0 : ℝ), -hl - r, 0) ++
      ((capsuleMidRings Real.cos Real.sin Real.pi r hl S H C').flatten
      ++ (List.replicate S ((0 : ℝ), hl + r, 0)
          ++ [((0 : ℝ), -hl - r, 0), ((0 : ℝ), hl + r, 0)])) := by
  rw [capsuleVerts, capsuleRings_decomp]
  simp [List.flatten_append, List.append_assoc]

theorem capsule_mid_ne (r hl : ℝ) (hr : 0 < r) (hhl : 0 ≤ hl) (S H C' : ℕ) :
    ∀ v ∈ (capsuleMidRings Real.cos Real.sin Real.pi r hl S H C').flatten,
      v ≠ ((0 : ℝ), -hl - r, 0) ∧ v ≠ ((0 : ℝ), hl + r, 0) := by
  intro v hv
  rw [List.mem_flatten] at hv
  obtain ⟨ring, hring, hv⟩ := hv
  rw [capsuleMidRings, List.mem_append, List.mem_append] at hring
  rcases hring with (hring | hring) | hring
  · obtain ⟨k, hk, rfl⟩ := List.mem_map.mp hring
    rw [List.mem_range] at hk
    rw [mem_ringVerts] at hv
    obtain ⟨j, hj, rfl⟩ := hv
    obtain ⟨hs0, -⟩ := cap_angle_sin (i := C' + 1 - (k + 1)) (C := C' + 1)
      (by omega) (by omega)
    have hslt := cap_angle_sin_lt_one (i := C' + 1 - (k + 1)) (C := C' + 1)
      (by omega) (by omega)
    constructor <;> intro heq <;>
      have h2 := congrArg (fun p : P3 ℝ => p.2.1) heq <;> dsimp at h2 <;> nlinarith
  · obtain ⟨i, hi, rfl⟩ := List.mem_map.mp hring
    rw [List.mem_range] at hi
    rw [mem_ringVerts] at hv
    obtain ⟨j, hj, rfl⟩ := hv
    have hYb := cyl_ring_y_bound hhl hi
    rw [abs_le] at hYb
    constructor <;> intro heq <;>
      have h2 := congrArg (fun p : P3 ℝ => p.2.1) heq <;> dsimp at h2 <;> linarith [hYb.1, hYb.2]
  · obtain ⟨k, hk, rfl⟩ := List.mem_map.mp hring
    rw [List.mem_range] at hk
    rw [mem_ringVerts] at hv
    obtain ⟨j, hj, rfl⟩ := hv
    obtain ⟨hs0, -⟩ := cap_angle_sin (i := k + 1) (C := C' + 1) (by omega) (by omega)
    have hslt := cap_angle_sin_lt_one (i := k + 1) (C := C' + 1) (by omega) (by omega)
    constructor <;> intro heq <;>
      have h2 := congrArg (fun p : P3 ℝ => p.2.1) heq <;> dsimp at h2 <;> nlinarith

theorem capsuleVerts_flatten_length (r hl : ℝ) (S H C : ℕ) :
    (capsuleRings Real.cos Real.sin Real.pi r hl S H C).flatten.length =
      numCapsuleRings H C * S := by
  rw [flatten_length_uniform capsuleRings_ring_length, capsuleRings_length]

theorem capsuleVerts_getElem_ring (r hl : ℝ) (S H C : ℕ) {i j : ℕ}
    (hi : i < numCapsuleRings H C) (hj : j < S) :
    (capsuleVerts Real.cos Real.sin Real.pi r hl S H C)[i * S + j]? =
      ((capsuleRings Real.cos Real.sin Real.pi r hl S H C)[i]?.bind fun l => l[j]?) := by
  have hlt : i * S + j < numCapsuleRings H C * S := by
    calc i * S + j < (i + 1) * S := by rw [Nat.succ_mul]; omega
    _ ≤ numCapsuleRings H C * S := Nat.mul_le_mul_right S (Nat.succ_le_of_lt hi)
  rw [capsuleVerts, List.getElem?_append_left (by rw [capsuleVerts_flatten_length]; omega)]
  exact flatten_getElem_uniform capsuleRings_ring_length
    (by rw [capsuleRings_length]; omega) hj

theorem capsuleVerts_getElem_poles (r hl : ℝ) (S H C : ℕ) :
    (capsuleVerts Real.cos Real.sin Real.pi r hl S H C)[numCapsuleRings H C * S]? =
      some ((0 : ℝ), -hl - r, 0) ∧
    (capsuleVerts Real.cos Real.sin Real.pi r hl S H C)[numCapsuleRings H C * S + 1]? =
      some ((0 : ℝ), hl + r, 0) := by
  have hlen := capsuleVerts_flatten_length r hl S H C
  constructor
  · rw [capsuleVerts, List.getElem?_append_right (le_of_eq hlen)]
    rw [hlen]
    simp
  · rw [capsuleVerts, List.getElem?_append_right (by omega)]
    rw [hlen]
    simp

theorem capsuleRings_first (r hl : ℝ) (S H C' : ℕ) :
    (capsuleRings Real.cos Real.sin Real.pi r hl S H (C' + 1))[0]? =
      some (List.replicate S ((0 : ℝ), -hl - r, 0)) := by
  rw [capsuleRings_decomp]
  simp

theorem capsuleRings_last (r hl : ℝ) (S H C' : ℕ) :
    (capsuleRings Real.cos Real.sin Real.pi r hl S H
        (C' + 1))[numCapsuleRings H (C' + 1) - 1]? =
      some (List.replicate S ((0 : ℝ), hl + r, 0)) := by
  have h1 : (capsuleRings Real.cos Real.sin Real.pi r hl S H (C' + 1)).getLast? =
      some (List.replicate S ((0 : ℝ), hl + r, 0)) := by
    rw [capsuleRings_decomp, ← List.cons_append, List.getLast?_concat]
  rw [List.getLast?_eq_getElem?, capsuleRings_length] at h1
  exact h1

theorem capsule_fan_faces (r hl : ℝ) (S H C : ℕ) (hC : 1 ≤ C) :
    ∀ f ∈ capsuleFaces S H C, f.length = 3 →
      facePositions (capsuleVerts Real.cos Real.sin Real.pi r hl S H C) f =
        List.replicate 3 ((0 : ℝ), -hl - r, 0) ∨
      facePositions (capsuleVerts Real.cos Real.sin Real.pi r hl S H C) f =
        List.replicate 3 ((0 : ℝ), hl + r, 0) := by
  obtain ⟨C', rfl⟩ : ∃ C', C = C' + 1 := ⟨C - 1, by omega⟩
  intro f hf h3
  rw [capsuleFaces, List.mem_append, List.mem_append] at hf
  have hnR : 1 ≤ numCapsuleRings H (C' + 1) := by simp only [numCapsuleRings]; omega
  rcases hf with (hf | hf) | hf
  · obtain ⟨i, hi, hf⟩ := List.mem_flatMap.mp hf
    obtain ⟨j, hj, rfl⟩ := List.mem_map.mp hf
    simp at h3
  · left
    obtain ⟨j, hj, rfl⟩ := List.mem_map.mp hf
    rw [List.mem_range] at hj
    have hS0 : 0 < S := by omega
    have h1 := (capsuleVerts_getElem_poles r hl S H (C' + 1)).1
    have h2 : (capsuleVerts Real.cos Real.sin Real.pi r hl S H (C' + 1))[(j + 1) % S]? =
        some ((0 : ℝ), -hl - r, 0) := by
      have := capsuleVerts_getElem_ring r hl S H (C' + 1) (i := 0)
        (j := (j + 1) % S) (by omega) (Nat.mod_lt _ hS0)
      rw [capsuleRings_first] at this
      simpa [List.getElem?_replicate, Nat.mod_lt _ hS0] using this
    have h3' : (capsuleVerts Real.cos Real.sin Real.pi r hl S H (C' + 1))[j]? =
        some ((0 : ℝ), -hl - r, 0) := by
      have := capsuleVerts_getElem_ring r hl S H (C' + 1) (i := 0) (j := j) (by omega) hj
      rw [capsuleRings_first] at this
      simpa [List.getElem?_replicate, hj] using this
    simp [facePositions, List.filterMap_cons, h1, h2, h3', List.replicate]
  · right
    obtain ⟨j, hj, rfl⟩ := List.mem_map.mp hf
    rw [List.mem_range] at hj
    have hS0 : 0 < S := by omega
    have h1 := (capsuleVerts_getElem_poles r hl S H (C' + 1)).2
    have h2 : (capsuleVerts Real.cos Real.sin Real.pi r hl S H
        (C' + 1))[(numCapsuleRings H (C' + 1) - 1) * S + j]? =
        some ((0 : ℝ), hl + r, 0) := by
      have := capsuleVerts_getElem_ring r hl S H (C' + 1)
        (i := numCapsuleRings H (C' + 1) - 1) (j := j) (by omega) hj
      rw [capsuleRings_last] at this
      simpa [List.getElem?_replicate, hj] using this
    have h3' : (capsuleVerts Real.cos Real.sin Real.pi r hl S H
        (C' + 1))[(numCapsuleRings H (C' + 1) - 1) * S + (j + 1) % S]? =
        some ((0 : ℝ), hl + r, 0) := by
      have := capsuleVerts_getElem_ring r hl S H (C' + 1)
        (i := numCapsuleRings H (C' + 1) - 1) (j := (j + 1) % S) (by omega)
        (Nat.mod_lt _ hS0)
      rw [capsuleRings_last] at this
      simpa [List.getElem?_replicate, Nat.mod_lt _ hS0] using this
    simp [facePositions, List.filterMap_cons, h1, h2, h3', List.replicate]


/-! ## Claim theorems -/

/-- C1: for every capsule generated by `create_capsule` with ring count `S`,
height count `H` and cap count `C` (any parameters, in particular the defaults
and the 16/8/6 and 10/4/4 values the script uses), the number of vertices of
the produced mesh equals `S * (2 * C + H + 1) + 2`: one ring of `S` vertices
for each of the `C` bottom-cap rings, `H + 1` cylinder rings and `C` top-cap
rings, plus the two pole vertices. -/
theorem create_capsule_vertex_count {α : Type} [Field α] (cosF sinF : α → α)
    (piA r hl : α) (S H C : ℕ) :
    (capsuleVerts cosF sinF piA r hl S H C).length = S * (2 * C + H + 1) + 2 := by
  simp [capsuleVerts, capsuleRings, ringVerts, List.length_flatten, Function.comp_def,
    List.map_const', List.sum_replicate, smul_eq_mul]
  ring

/-- C2, counterexample: the armature built by `create_armature` does not
contain nine bones — it creates ten (`torso` plus nine descendants). -/
theorem armature_nine_bones_refuted : ¬ (create_armature.length = 9) := by decide

/-- C2, amended: the armature built by `create_armature` contains exactly ten
bones: exactly one root bone named `torso` (with no parent) and nine
descendants with exactly these parent relationships: `head`, `l_upperArm`,
`r_upperArm`, `l_thigh`, `r_thigh` are children of `torso`; `l_foreArm` is a
child of `l_upperArm`; `r_foreArm` of `r_upperArm`; `l_shin` of `l_thigh`;
`r_shin` of `r_thigh`. -/
theorem armature_ten_bones_hierarchy :
    create_armature.map (fun b => (b.name, b.parent)) =
      [("torso", none), ("head", some "torso"), ("l_upperArm", some "torso"),
        ("l_foreArm", some "l_upperArm"), ("r_upperArm", some "torso"),
        ("r_foreArm", some "r_upperArm"), ("l_thigh", some "torso"),
        ("l_shin", some "l_thigh"), ("r_thigh", some "torso"),
        ("r_shin", some "r_thigh")] ∧ create_armature.length = 10 := by decide

/-- C4: the faces `create_capsule` builds are exactly those of the stitching
algorithm: for each of the `2 * C + H` consecutive ring pairs and each `j < S`
one quadrilateral `[i*S+j, i*S+(j+1)%S, (i+1)*S+(j+1)%S, (i+1)*S+j]` — so
`(2*C + H) * S` quads — plus `S` bottom-fan triangles joining the bottom pole
to ring `0` and `S` top-fan triangles joining the top pole to the last ring,
and no other faces. -/
theorem capsule_faces_stitching (S H C : ℕ) :
    (∀ f, f ∈ capsuleFaces S H C ↔
      ((∃ i < 2 * C + H, ∃ j < S,
          f = [i * S + j, i * S + (j + 1) % S, (i + 1) * S + (j + 1) % S, (i + 1) * S + j]) ∨
        (∃ j < S, f = [numCapsuleRings H C * S, (j + 1) % S, j]) ∨
        (∃ j < S, f = [numCapsuleRings H C * S + 1, (2 * C + H) * S + j,
          (2 * C + H) * S + (j + 1) % S]))) ∧
    (capsuleFaces S H C).countP (fun f => f.length == 4) = (2 * C + H) * S ∧
    (capsuleFaces S H C).countP (fun f => f.length == 3) = S + S := by
  have hnr : numCapsuleRings H C - 1 = 2 * C + H := by
    simp [numCapsuleRings]; omega
  refine ⟨fun f => ?_, ?_, ?_⟩
  · rw [capsuleFaces, hnr]
    simp [List.mem_append, List.mem_flatMap, List.mem_map, List.mem_range, eq_comm]
  · rw [capsuleFaces, hnr, List.countP_append, List.countP_append]
    rw [List.countP_eq_length.mpr
      (by intro a ha; simp at ha; obtain ⟨i, _, j, _, rfl⟩ := ha; rfl)]
    rw [List.countP_eq_zero.mpr
      (by intro a ha; simp at ha; obtain ⟨j, _, rfl⟩ := ha; simp)]
    rw [List.countP_eq_zero.mpr
      (by intro a ha; simp at ha; obtain ⟨j, _, rfl⟩ := ha; simp)]
    simp [List.length_flatMap, Function.comp_def, List.map_const', List.sum_replicate,
      smul_eq_mul, Nat.mul_comm]
  · rw [capsuleFaces, hnr, List.countP_append, List.countP_append]
    rw [List.countP_eq_zero.mpr
      (by intro a ha; simp at ha; obtain ⟨i, _, j, _, rfl⟩ := ha; simp)]
    rw [List.countP_eq_length.mpr
      (by intro a ha; simp at ha; obtain ⟨j, _, rfl⟩ := ha; rfl)]
    rw [List.countP_eq_length.mpr
      (by intro a ha; simp at ha; obtain ⟨j, _, rfl⟩ := ha; rfl)]
    simp

/-- C5: every vertex of `create_capsule(name, radius, half_length, ...)` lies
on the surface of the capsule of cylinder radius `r` and half-length `hl`
oriented along the Y axis: a vertex with `|y| ≤ hl` satisfies
`x² + z² = r²`, a vertex with `|y| > hl` lies on the hemisphere of radius `r`
centered at `(0, ±hl, 0)` (the sign of its `y`), every vertex has
`|y| ≤ hl + r`, and both extremes `y = ±(hl + r)` are attained (the poles), so
the total height is `2*hl + 2*r`. -/
theorem capsule_verts_on_surface (r hl : ℝ) (hr : 0 < r) (hhl : 0 ≤ hl) (S H C : ℕ) :
    (∀ v ∈ capsuleVerts Real.cos Real.sin Real.pi r hl S H C,
      (|v.2.1| ≤ hl → v.1 ^ 2 + v.2.2 ^ 2 = r ^ 2) ∧
      (hl < |v.2.1| → v.1 ^ 2 + (|v.2.1| - hl) ^ 2 + v.2.2 ^ 2 = r ^ 2) ∧
      |v.2.1| ≤ hl + r) ∧
    ((0 : ℝ), -hl - r, 0) ∈ capsuleVerts Real.cos Real.sin Real.pi r hl S H C ∧
    ((0 : ℝ), hl + r, 0) ∈ capsuleVerts Real.cos Real.sin Real.pi r hl S H C := by
  refine ⟨?_, List.mem_append_right _ (by simp), List.mem_append_right _ (by simp)⟩
  intro v hv
  rw [capsuleVerts, List.mem_append] at hv
  rcases hv with hv | hv
  · rw [List.mem_flatten] at hv
    obtain ⟨ring, hring, hv⟩ := hv
    rw [capsuleRings, List.mem_append, List.mem_append] at hring
    rcases hring with (hring | hring) | hring
    · obtain ⟨k, hk, rfl⟩ := List.mem_map.mp hring
      rw [List.mem_range] at hk
      obtain ⟨hs0, hs1⟩ := cap_angle_sin (i := C - k) (C := C) (by omega) (by omega)
      refine capRing_vertex_surface hr hhl hs0 hs1 ?_ S v hv
      rw [abs_of_nonpos (by nlinarith [mul_pos hr hs0])]
      ring
    · obtain ⟨i, hi, rfl⟩ := List.mem_map.mp hring
      rw [List.mem_range] at hi
      exact cylRing_vertex_surface hr.le hhl (cyl_ring_y_bound hhl hi) S v hv
    · obtain ⟨k, hk, rfl⟩ := List.mem_map.mp hring
      rw [List.mem_range] at hk
      obtain ⟨hs0, hs1⟩ := cap_angle_sin (i := k + 1) (C := C) (by omega) (by omega)
      refine capRing_vertex_surface hr hhl hs0 hs1 ?_ S v hv
      rw [abs_of_nonneg (by nlinarith [mul_pos hr hs0])]
  · have hb : |(-hl - r : ℝ)| = hl + r := by
      rw [abs_of_nonpos (by linarith)]; ring
    have ht : |(hl + r : ℝ)| = hl + r := abs_of_nonneg (by linarith)
    simp only [List.mem_cons, List.mem_singleton, List.not_mem_nil, or_false] at hv
    rcases hv with rfl | rfl
    · dsimp only
      exact ⟨fun habs => absurd habs (by rw [hb]; push_neg; linarith),
        fun _ => by rw [hb]; ring, by rw [hb]⟩
    · dsimp only
      exact ⟨fun habs => absurd habs (by rw [ht]; push_neg; linarith),
        fun _ => by rw [ht]; ring, by rw [ht]⟩

/-- Witness for C5, at the default parameters `radius = 1`, `half_length = 1`,
segments 12/6/6: the bottom pole is a vertex of the capsule. -/
theorem capsule_verts_on_surface_witness :
    ((0 : ℝ), -(1 : ℝ) - 1, 0) ∈ capsuleVerts Real.cos Real.sin Real.pi 1 1 12 6 6 :=
  (capsule_verts_on_surface 1 1 one_pos zero_le_one 12 6 6).2.1

/-- C6: for every invocation of `main`, in both branches of the output-path
computation (the current directory contains `apps/client/public`, or the
fallback resolving the project root from the script's own location), the path
passed to `export_glb` ends with the fixed relative path
`apps/client/public/models/bean_character.glb`. -/
theorem output_path_fixed_suffix :
    ∀ (clientPublicExists : Bool) (cwd scriptFile : List String),
      OUTPUT_PATH <:+ mainOutputPath clientPublicExists cwd scriptFile := by
  intro b cwd sf
  cases b
  · exact List.suffix_append _ _
  · exact List.suffix_append _ _

/-- C7: the export operation is invoked exactly once per run of `main`, with
exactly the armature object and the mesh object selected, in GLB binary
format, with animation export disabled, skin-weight export enabled and
material export enabled, and at export time the mesh carries exactly the one
material appended by `add_material` ("BeanMaterial"): the exported asset
contains mesh geometry, skin weights, the bone hierarchy and one material,
and no animation data. -/
theorem export_invocation_once_with_args
    (clientPublicExists : Bool) (cwd scriptFile : List String) :
    (mainExportCalls clientPublicExists cwd scriptFile).length = 1 ∧
    mainExportCalls clientPublicExists cwd scriptFile =
      [export_glb "BeanArmature" "BeanCharacter"
        (mainOutputPath clientPublicExists cwd scriptFile)] ∧
    (export_glb "BeanArmature" "BeanCharacter"
      (mainOutputPath clientPublicExists cwd scriptFile)).selected =
      ["BeanArmature", "BeanCharacter"] ∧
    (export_glb "BeanArmature" "BeanCharacter"
      (mainOutputPath clientPublicExists cwd scriptFile)).use_selection = true ∧
    (export_glb "BeanArmature" "BeanCharacter"
      (mainOutputPath clientPublicExists cwd scriptFile)).export_format = "GLB" ∧
    (export_glb "BeanArmature" "BeanCharacter"
      (mainOutputPath clientPublicExists cwd scriptFile)).export_animations = false ∧
    (export_glb "BeanArmature" "BeanCharacter"
      (mainOutputPath clientPublicExists cwd scriptFile)).export_skins = true ∧
    (export_glb "BeanArmature" "BeanCharacter"
      (mainOutputPath clientPublicExists cwd scriptFile)).export_materials = "EXPORT" ∧
    mainMeshMaterials = ["BeanMaterial"] :=
  ⟨rfl, rfl, rfl, rfl, rfl, rfl, rfl, rfl, rfl⟩

/-- C8: in exact arithmetic the first cap ring (bottom hemisphere, loop index
`i = segments_cap`, angle `π/2`) and the last cap ring (top hemisphere,
`i = segments_cap`, angle `π/2`) have ring radius `r * cos(π/2) = 0`, so each
consists of `S` vertices coincident with the corresponding pole at
`(0, ∓(hl + r), 0)`; consequently each pole position carries exactly `S + 1`
coincident vertices (the degenerate ring plus the pole vertex, every other
vertex differing from both pole positions), and every pole-fan triangle has
its three vertex positions coincident (zero area). -/
theorem capsule_degenerate_cap_rings (r hl : ℝ) (hr : 0 < r) (hhl : 0 ≤ hl)
    (S H C : ℕ) (hC : 1 ≤ C) :
    ((0 : ℝ), -hl - r, 0) ≠ ((0 : ℝ), hl + r, 0) ∧
    (capsuleRings Real.cos Real.sin Real.pi r hl S H C).head? =
      some (List.replicate S ((0 : ℝ), -hl - r, 0)) ∧
    (capsuleRings Real.cos Real.sin Real.pi r hl S H C).getLast? =
      some (List.replicate S ((0 : ℝ), hl + r, 0)) ∧
    (∃ mid : List (P3 ℝ),
      capsuleVerts Real.cos Real.sin Real.pi r hl S H C =
        List.replicate S ((0 : ℝ), -hl - r, 0) ++ mid ++
          List.replicate S ((0 : ℝ), hl + r, 0) ++
          [((0 : ℝ), -hl - r, 0), ((0 : ℝ), hl + r, 0)] ∧
      ∀ v ∈ mid, v ≠ ((0 : ℝ), -hl - r, 0) ∧ v ≠ ((0 : ℝ), hl + r, 0)) ∧
    (∀ f ∈ capsuleFaces S H C, f.length = 3 →
      facePositions (capsuleVerts Real.cos Real.sin Real.pi r hl S H C) f =
        List.replicate 3 ((0 : ℝ), -hl - r, 0) ∨
      facePositions (capsuleVerts Real.cos Real.sin Real.pi r hl S H C) f =
        List.replicate 3 ((0 : ℝ), hl + r, 0)) := by
  obtain ⟨C', rfl⟩ : ∃ C', C = C' + 1 := ⟨C - 1, by omega⟩
  refine ⟨?_, ?_, ?_,
    ⟨(capsuleMidRings Real.cos Real.sin Real.pi r hl S H C').flatten, ?_,
      capsule_mid_ne r hl hr hhl S H C'⟩,
    capsule_fan_faces r hl S H (C' + 1) hC⟩
  · intro heq
    simp only [Prod.mk.injEq] at heq
    linarith [heq.2.1]
  · rw [capsuleRings_decomp]
    rfl
  · rw [capsuleRings_decomp, ← List.cons_append, List.getLast?_concat]
  · rw [capsule_verts_decomp]
    simp [List.append_assoc]

/-- Witness for C8, at `radius = 1`, `half_length = 1`, segments 12/6/6: the
first ring of the capsule consists of 12 vertices at the bottom pole. -/
theorem capsule_degenerate_cap_rings_witness :
    (capsuleRings Real.cos Real.sin Real.pi (1 : ℝ) 1 12 6 6).head? =
      some (List.replicate 12 ((0 : ℝ), -(1 : ℝ) - 1, 0)) :=
  (capsule_degenerate_cap_rings 1 1 one_pos zero_le_one 12 6 6 (by decide)).2.1

/-- C9: in the armature built by `create_armature`, every bone created with
`use_connect = True` (`head`, `l_foreArm`, `r_foreArm`, `l_shin`, `r_shin`)
has its head position exactly equal to its parent bone's tail position, so
each limb chain and the torso-head chain is geometrically contiguous. -/
theorem connected_bones_contiguous :
    ∀ b ∈ create_armature, b.use_connect = true →
      ∃ p ∈ create_armature, b.parent = some p.name ∧ p.tail = b.head := by
  intro b hb hc
  fin_cases hb
  · exact absurd hc (by decide)
  · exact ⟨torso_bone, by simp [create_armature], rfl, rfl⟩
  · exact absurd hc (by decide)
  · exact ⟨l_upperArm_bone, by simp [create_armature], rfl, rfl⟩
  · exact absurd hc (by decide)
  · exact ⟨r_upperArm_bone, by simp [create_armature], rfl, rfl⟩
  · exact absurd hc (by decide)
  · exact ⟨l_thigh_bone, by simp [create_armature], rfl, rfl⟩
  · exact absurd hc (by decide)
  · exact ⟨r_thigh_bone, by simp [create_armature], rfl, rfl⟩

/-- Witness for C9: the `head` bone is connected and its head is its parent
`torso`'s tail. -/
theorem connected_bones_contiguous_witness :
    ∃ p ∈ create_armature, head_bone.parent = some p.name ∧ p.tail = head_bone.head :=
  connected_bones_contiguous head_bone (by simp [create_armature]) rfl
theorem dist2_comm {α : Type} [Field α] (p q : P3 α) : dist2 p q = dist2 q p := by
  simp only [dist2]
  ring

theorem removeDoubles_sep {β : Type} (close : β → β → Bool)
    (hsymm : ∀ u v, close u v = close v u) :
    ∀ (rest kept : List β),
      (∀ u ∈ kept, ∀ w ∈ kept, u ≠ w → close u w = false) →
      ∀ p ∈ removeDoubles close kept rest, ∀ q ∈ removeDoubles close kept rest,
        p ≠ q → close p q = false := by
  intro rest
  induction rest with
  | nil =>
    intro kept hinv p hp q hq hne
    rw [removeDoubles, List.mem_reverse] at hp hq
    exact hinv p hp q hq hne
  | cons v rest ih =>
    intro kept hinv p hp q hq hne
    rw [removeDoubles] at hp hq
    by_cases hany : kept.any (fun u => close u v) = true
    · rw [if_pos hany] at hp hq
      exact ih kept hinv p hp q hq hne
    · rw [if_neg hany] at hp hq
      have hnone : ∀ u ∈ kept, close u v = false := by
        intro u hu
        rcases Bool.eq_false_or_eq_true (close u v) with h | h
        · exact absurd (List.any_eq_true.mpr ⟨u, hu, h⟩) hany
        · exact h
      refine ih (v :: kept) ?_ p hp q hq hne
      intro u hu w hw hne'
      rcases List.mem_cons.mp hu with h1 | h1
      · rcases List.mem_cons.mp hw with h2 | h2
        · exact absurd (h1.trans h2.symm) hne'
        · rw [h1, hsymm]
          exact hnone w h2
      · rcases List.mem_cons.mp hw with h2 | h2
        · rw [h2]
          exact hnone u h1
        · exact hinv u h1 w h2 hne'

theorem theta_pair {S : ℕ} (hS2 : S % 2 = 0) {j : ℕ} (hj : j < S) :
    ∃ j' < S, Real.cos (2 * Real.pi * (j' : ℝ) / (S : ℝ)) =
        -Real.cos (2 * Real.pi * (j : ℝ) / (S : ℝ)) ∧
      Real.sin (2 * Real.pi * (j' : ℝ) / (S : ℝ)) =
        Real.sin (2 * Real.pi * (j : ℝ) / (S : ℝ)) := by
  obtain ⟨m, rfl⟩ : ∃ m, S = 2 * m := ⟨S / 2, by omega⟩
  have hm1 : 1 ≤ m := by omega
  have hm0 : ((2 * m : ℕ) : ℝ) ≠ 0 := by positivity
  rcases le_or_lt j m with hjm | hjm
  · refine ⟨m - j, by omega, ?_⟩
    have key : 2 * Real.pi * ((m - j : ℕ) : ℝ) / ((2 * m : ℕ) : ℝ) =
        Real.pi - 2 * Real.pi * (j : ℝ) / ((2 * m : ℕ) : ℝ) := by
      rw [Nat.cast_sub hjm]
      push_cast
      field_simp
      ring
    rw [key, Real.cos_pi_sub, Real.sin_pi_sub]
    exact ⟨rfl, rfl⟩
  · refine ⟨m + (2 * m - j), by omega, ?_⟩
    have key : 2 * Real.pi * ((m + (2 * m - j) : ℕ) : ℝ) / ((2 * m : ℕ) : ℝ) =
        (Real.pi - 2 * Real.pi * (j : ℝ) / ((2 * m : ℕ) : ℝ)) + 2 * Real.pi := by
      have hcast : ((m + (2 * m - j) : ℕ) : ℝ) = (m : ℝ) + (2 * (m : ℝ) - (j : ℝ)) := by
        push_cast [Nat.cast_sub hj.le]
        ring
      rw [hcast]
      push_cast
      field_simp
      ring
    rw [key, Real.cos_add_two_pi, Real.sin_add_two_pi, Real.cos_pi_sub, Real.sin_pi_sub]
    exact ⟨rfl, rfl⟩

/-- C3: after `create_bean_mesh` completes (join of all parts followed by the
merge-by-distance pass with threshold `0.015`), the final mesh contains no two
distinct vertices within the merge tolerance of each other: for every faithful
closeness test `close` (deciding `dist² ≤ 0.015²`), any two distinct vertices
of the merged list are farther apart than the tolerance. -/
theorem bean_mesh_no_close_pairs {α : Type} [LinearOrderedField α]
    (cosF sinF : α → α) (piA : α) (close : P3 α → P3 α → Bool)
    (hclose : ∀ p q, close p q = true ↔ dist2 p q ≤ (3 / 200 : α) ^ 2) :
    ∀ p ∈ create_bean_mesh cosF sinF piA close,
      ∀ q ∈ create_bean_mesh cosF sinF piA close,
        p ≠ q → ¬ (dist2 p q ≤ (3 / 200 : α) ^ 2) := by
  have hsymm : ∀ u v, close u v = close v u := by
    intro u v
    have hiff : close u v = true ↔ close v u = true := by
      rw [hclose, hclose, dist2_comm]
    rcases Bool.eq_false_or_eq_true (close u v) with h | h <;>
      rcases Bool.eq_false_or_eq_true (close v u) with h2 | h2
    · rw [h, h2]
    · exact absurd (hiff.mp h) (by rw [h2]; exact Bool.false_ne_true)
    · exact absurd (hiff.mpr h2) (by rw [h]; exact Bool.false_ne_true)
    · rw [h, h2]
  intro p hp q hq hne habs
  have hfalse := removeDoubles_sep close hsymm
    (beanAssembledVerts cosF sinF piA) [] (by simp) p hp q hq hne
  rw [(hclose p q).mpr habs] at hfalse
  exact Bool.false_ne_true hfalse.symm

/-- Witness for C3: over `ℚ` (host cosine/sine modelled by the zero function)
with the decidable closeness test, the merged bean mesh has no two distinct
vertices within the tolerance. -/
theorem bean_mesh_no_close_pairs_witness :
    (∀ p q : P3 ℚ, closeQ (3 / 200) p q = true ↔ dist2 p q ≤ (3 / 200 : ℚ) ^ 2) ∧
    (∀ p ∈ create_bean_mesh (fun _ : ℚ => 0) (fun _ => 0) 0 (closeQ (3 / 200)),
      ∀ q ∈ create_bean_mesh (fun _ : ℚ => 0) (fun _ => 0) 0 (closeQ (3 / 200)),
        p ≠ q → ¬ (dist2 p q ≤ (3 / 200 : ℚ) ^ 2)) :=
  ⟨fun p q => decide_eq_true_iff,
    bean_mesh_no_close_pairs (fun _ : ℚ => 0) (fun _ => 0) 0 (closeQ (3 / 200))
      (fun p q => decide_eq_true_iff)⟩
theorem ringVerts_mirror {R Y : ℝ} {S : ℕ} (hS2 : S % 2 = 0) :
    ∀ v ∈ ringVerts Real.cos Real.sin Real.pi R Y S,
      mirrorX v ∈ ringVerts Real.cos Real.sin Real.pi R Y S := by
  intro v hv
  rw [mem_ringVerts] at hv ⊢
  obtain ⟨j, hj, rfl⟩ := hv
  obtain ⟨j', hj', hc, hs⟩ := theta_pair hS2 hj
  refine ⟨j', hj', ?_⟩
  simp only [mirrorX, hc, hs, Prod.mk.injEq]
  and_intros <;> ring_nf

theorem capsuleRings_shape {r hl : ℝ} {S H C : ℕ} :
    ∀ ring ∈ capsuleRings Real.cos Real.sin Real.pi r hl S H C,
      ∃ R Y, ring = ringVerts Real.cos Real.sin Real.pi R Y S := by
  intro ring hring
  rw [capsuleRings, List.mem_append, List.mem_append] at hring
  rcases hring with (h | h) | h <;>
    · obtain ⟨k, _, rfl⟩ := List.mem_map.mp h
      exact ⟨_, _, rfl⟩

theorem capsuleVerts_mirror {r hl : ℝ} {S H C : ℕ} (hS2 : S % 2 = 0) :
    ∀ v ∈ capsuleVerts Real.cos Real.sin Real.pi r hl S H C,
      mirrorX v ∈ capsuleVerts Real.cos Real.sin Real.pi r hl S H C := by
  intro v hv
  rw [capsuleVerts, List.mem_append] at hv ⊢
  rcases hv with hv | hv
  · left
    rw [List.mem_flatten] at hv ⊢
    obtain ⟨ring, hring, hv⟩ := hv
    obtain ⟨R, Y, rfl⟩ := capsuleRings_shape ring hring
    exact ⟨_, hring, ringVerts_mirror hS2 v hv⟩
  · right
    simp only [List.mem_cons, List.mem_singleton, List.not_mem_nil, or_false] at hv ⊢
    rcases hv with rfl | rfl
    · left
      simp [mirrorX]
    · right
      simp [mirrorX]

theorem create_uvsphere_mirror {r : ℝ} {u v : ℕ} (hu2 : u % 2 = 0) :
    ∀ p ∈ create_uvsphere Real.cos Real.sin Real.pi r u v,
      mirrorX p ∈ create_uvsphere Real.cos Real.sin Real.pi r u v := by
  intro p hp
  rw [create_uvsphere, List.mem_append] at hp ⊢
  rcases hp with hp | hp
  · left
    rw [List.mem_flatMap] at hp ⊢
    obtain ⟨k, hk, hp⟩ := hp
    obtain ⟨j, hj, rfl⟩ := List.mem_map.mp hp
    rw [List.mem_range] at hj
    obtain ⟨j', hj', hc, hs⟩ := theta_pair hu2 hj
    refine ⟨k, hk, List.mem_map.mpr ⟨j', List.mem_range.mpr hj', ?_⟩⟩
    simp only [mirrorX, hc, hs, Prod.mk.injEq]
    and_intros <;> ring_nf
  · right
    simp only [List.mem_cons, List.mem_singleton, List.not_mem_nil, or_false] at hp ⊢
    rcases hp with rfl | rfl
    · left
      simp [mirrorX]
    · right
      simp [mirrorX]

theorem mirror_translate_y {α : Type} [Field α] (ty : α) (p : P3 α) :
    mirrorX (translateP (0, ty, 0) p) = translateP (0, ty, 0) (mirrorX p) := by
  simp only [mirrorX, translateP, Prod.mk.injEq]
  and_intros <;> ring_nf

theorem mirror_translate_x {α : Type} [Field α] (tx ty : α) (p : P3 α) :
    mirrorX (translateP (tx, ty, 0) p) = translateP (-tx, ty, 0) (mirrorX p) := by
  simp only [mirrorX, translateP, Prod.mk.injEq]
  and_intros <;> ring_nf

theorem mirror_rotZ_translate {α : Type} [Field α] (c s tx ty : α) (p : P3 α) :
    mirrorX (translateP (tx, ty, 0) (rotZ c s p)) =
      translateP (-tx, ty, 0) (rotZ c (-s) (mirrorX p)) := by
  simp only [mirrorX, translateP, rotZ, Prod.mk.injEq]
  and_intros <;> ring_nf

theorem armPart_mirror {c s r hl x : ℝ} :
    ∀ q ∈ armPart Real.cos Real.sin Real.pi c s r hl x,
      mirrorX q ∈ armPart Real.cos Real.sin Real.pi c (-s) r hl (-x) := by
  intro q hq
  rw [armPart] at hq ⊢
  obtain ⟨p, hp, rfl⟩ := List.mem_map.mp hq
  refine List.mem_map.mpr ⟨mirrorX p, ?_, (mirror_rotZ_translate c s x SHOULDER_Y p).symm⟩
  exact capsuleVerts_mirror (by decide) p hp

theorem legPart_mirror {r hl x y : ℝ} :
    ∀ q ∈ legPart Real.cos Real.sin Real.pi r hl x y,
      mirrorX q ∈ legPart Real.cos Real.sin Real.pi r hl (-x) y := by
  intro q hq
  rw [legPart] at hq ⊢
  obtain ⟨p, hp, rfl⟩ := List.mem_map.mp hq
  refine List.mem_map.mpr ⟨mirrorX p, ?_, (mirror_translate_x x y p).symm⟩
  exact capsuleVerts_mirror (by decide) p hp

theorem create_bean_torso_mirror :
    ∀ v ∈ create_bean_torso Real.cos Real.sin Real.pi,
      mirrorX v ∈ create_bean_torso Real.cos Real.sin Real.pi := by
  intro v hv
  rw [create_bean_torso, List.mem_append] at hv ⊢
  rcases hv with hv | hv
  · exact Or.inl (capsuleVerts_mirror (by decide) v hv)
  · right
    obtain ⟨p, hp, rfl⟩ := List.mem_map.mp hv
    exact List.mem_map.mpr ⟨mirrorX p, create_uvsphere_mirror (by decide) p hp,
      (mirror_translate_y _ p).symm⟩
/-- C10: the vertex set of the assembled bean character mesh — the parts
`create_bean_mesh` positions and joins (torso+head on the midline, left and
right limbs at sign-negated x offsets with identical y and z, each capsule and
sphere ring having an even vertex count, 16 or 10) — is mirror-symmetric about
the plane `x = 0`: for every vertex `(x, y, z)` there is a vertex `(-x, y, z)`. -/
theorem bean_assembled_mirror_symmetric :
    ∀ v ∈ beanAssembledVerts Real.cos Real.sin Real.pi,
      mirrorX v ∈ beanAssembledVerts Real.cos Real.sin Real.pi := by
  intro v hv
  rw [beanAssembledVerts, List.mem_flatten] at hv ⊢
  obtain ⟨part, hpart, hv⟩ := hv
  rw [beanParts] at hpart
  fin_cases hpart
  · exact ⟨create_bean_torso Real.cos Real.sin Real.pi, by simp [beanParts],
      create_bean_torso_mirror v hv⟩
  · -- left upper arm ↦ right upper arm
    refine ⟨armPart Real.cos Real.sin Real.pi (Real.cos (Real.pi / 2))
      (Real.sin (Real.pi / 2)) UPPER_ARM_RADIUS (UPPER_ARM_LENGTH / 2)
      (SHOULDER_X + UPPER_ARM_LENGTH / 2), by simp [beanParts], ?_⟩
    have h := armPart_mirror v hv
    rwa [Real.cos_neg, Real.sin_neg, neg_neg, neg_neg] at h
  · -- left forearm ↦ right forearm
    refine ⟨armPart Real.cos Real.sin Real.pi (Real.cos (Real.pi / 2))
      (Real.sin (Real.pi / 2)) FOREARM_RADIUS (FOREARM_LENGTH / 2)
      (SHOULDER_X + UPPER_ARM_LENGTH + FOREARM_LENGTH / 2 + 2 / 100),
      by simp [beanParts], ?_⟩
    have h := armPart_mirror v hv
    rwa [Real.cos_neg, Real.sin_neg, neg_neg, neg_neg] at h
  · -- right upper arm ↦ left upper arm
    refine ⟨armPart Real.cos Real.sin Real.pi (Real.cos (-(Real.pi / 2)))
      (Real.sin (-(Real.pi / 2))) UPPER_ARM_RADIUS (UPPER_ARM_LENGTH / 2)
      (-(SHOULDER_X + UPPER_ARM_LENGTH / 2)), by simp [beanParts], ?_⟩
    rw [Real.cos_neg, Real.sin_neg]
    exact armPart_mirror v hv
  · -- right forearm ↦ left forearm
    refine ⟨armPart Real.cos Real.sin Real.pi (Real.cos (-(Real.pi / 2)))
      (Real.sin (-(Real.pi / 2))) FOREARM_RADIUS (FOREARM_LENGTH / 2)
      (-(SHOULDER_X + UPPER_ARM_LENGTH + FOREARM_LENGTH / 2 + 2 / 100)),
      by simp [beanParts], ?_⟩
    rw [Real.cos_neg, Real.sin_neg]
    exact armPart_mirror v hv
  · -- left thigh ↦ right thigh
    refine ⟨legPart Real.cos Real.sin Real.pi THIGH_RADIUS (THIGH_LENGTH / 2) HIP_X
      (HIP_Y - THIGH_LENGTH / 2), by simp [beanParts], ?_⟩
    have h := legPart_mirror v hv
    rwa [neg_neg] at h
  · -- left shin ↦ right shin
    refine ⟨legPart Real.cos Real.sin Real.pi SHIN_RADIUS (SHIN_LENGTH / 2) HIP_X
      (HIP_Y - THIGH_LENGTH - SHIN_LENGTH / 2 - 2 / 100), by simp [beanParts], ?_⟩
    have h := legPart_mirror v hv
    rwa [neg_neg] at h
  · -- right thigh ↦ left thigh
    exact ⟨legPart Real.cos Real.sin Real.pi THIGH_RADIUS (THIGH_LENGTH / 2) (-HIP_X)
      (HIP_Y - THIGH_LENGTH / 2), by simp [beanParts], legPart_mirror v hv⟩
  · -- right shin ↦ left shin
    exact ⟨legPart Real.cos Real.sin Real.pi SHIN_RADIUS (SHIN_LENGTH / 2) (-HIP_X)
      (HIP_Y - THIGH_LENGTH - SHIN_LENGTH / 2 - 2 / 100), by simp [beanParts],
      legPart_mirror v hv⟩

/-- Witness for C10: the mirror image of the torso capsule's bottom pole
vertex is again a vertex of the assembled mesh. -/
theorem bean_assembled_mirror_symmetric_witness :
    mirrorX ((0 : ℝ), -(TORSO_HEIGHT / 2) - TORSO_RADIUS, 0) ∈
      beanAssembledVerts Real.cos Real.sin Real.pi :=
  bean_assembled_mirror_symmetric ((0 : ℝ), -(TORSO_HEIGHT / 2) - TORSO_RADIUS, 0)
    (by
      rw [beanAssembledVerts, List.mem_flatten]
      exact ⟨create_bean_torso Real.cos Real.sin Real.pi, by simp [beanParts],
        List.mem_append_left _ (List.mem_append_right _ (by simp))⟩)

end GenerateBean
